import Mathlib

/-!
Shallow embedding of `plaso/parsers/winreg.py` (class `WinRegistryParser`):
hive-type detection (`REG_TYPES` probing), pre-order key traversal
(`_RecurseKey`), weighted plugin dispatch (`Parse`) and event enrichment
(`GetEvents`).

Python objects are modelled as follows: a registry key is a finite tree
(`RegKey`) carrying its byte offset and the list returned by `GetSubkeys()`;
an attribute that a plugin may or may not have set is an `Option`; a
`Process` call that may raise is `Except Unit`; the truthiness test
`if call_back:` on a plugin result is emptiness of its event list; the
`plugins` dict built per weight is an insertion-ordered association list.
-/

namespace WinReg

/-- A registry key as seen by the engine: its byte offset and the subkeys
returned by `GetSubkeys()`. -/
inductive RegKey where
  | mk (offset : Int) (subkeys : List RegKey)

mutual

/-- Decidable equality on keys (structural). -/
def RegKey.decEq : (a b : RegKey) → Decidable (a = b)
  | .mk o1 s1, .mk o2 s2 =>
    if ho : o1 = o2 then
      match RegKey.decEqList s1 s2 with
      | isTrue hs => isTrue (by rw [ho, hs])
      | isFalse h => isFalse (by intro he; injection he; contradiction)
    else isFalse (by intro he; injection he; contradiction)

/-- Decidable equality on lists of keys. -/
def RegKey.decEqList : (a b : List RegKey) → Decidable (a = b)
  | [], [] => isTrue rfl
  | [], _ :: _ => isFalse (fun h => List.noConfusion h)
  | _ :: _, [] => isFalse (fun h => List.noConfusion h)
  | a :: as, b :: bs =>
    match RegKey.decEq a b, RegKey.decEqList as bs with
    | isTrue h1, isTrue h2 => isTrue (by rw [h1, h2])
    | isFalse h1, _ => isFalse (by intro h; injection h; contradiction)
    | _, isFalse h2 => isFalse (by intro h; injection h; contradiction)

end

instance : DecidableEq RegKey := RegKey.decEq

/-- The key's byte offset attribute. -/
def RegKey.offset : RegKey → Int
  | .mk o _ => o

/-- The key's `GetSubkeys()` enumeration. -/
def RegKey.GetSubkeys : RegKey → List RegKey
  | .mk _ s => s

mutual

/-- Embedding of `WinRegistryParser._RecurseKey` applied to a (non-null) key:
yield the key, then recurse into each subkey in order. -/
def recurseKey : RegKey → List RegKey
  | .mk o subs => .mk o subs :: recurseSubkeys subs

/-- The flattened traversal of a list of sibling keys, in order. -/
def recurseSubkeys : List RegKey → List RegKey
  | [] => []
  | k :: rest => recurseKey k ++ recurseSubkeys rest

end

/-- Embedding of `_RecurseKey` at the top call site: `Parse` passes it
`GetKeyByPath('\\')`, which may be null; `if not key: return` yields the
empty sequence then. -/
def traverse : Option RegKey → List RegKey
  | none => []
  | some k => recurseKey k

/-- An event object produced by a plugin. `none` in a field models a Python
attribute the plugin did not set; `payload` stands for all plugin-populated
fields the engine never touches. -/
structure Event where
  offset : Option Int
  registry_type : Option String
  url : Option String
  plugin : Option String
  payload : Nat
deriving DecidableEq

/-- The object returned by `plugin.Process(key)` when it returns at all:
an iterable of events, with an optional `URLS` attribute (absent or empty
collection is modelled as `[]`). The truthiness test `if call_back:` is
modelled as `events ≠ []` (a returned `None` is `events = []`). -/
structure RegResult where
  events : List Event
  URLS : List String
deriving DecidableEq

/-- A registry plugin as the engine sees it: its `plugin_name` and its
`Process` method, which may raise (`Except.error`). -/
structure Plugin where
  plugin_name : String
  process : RegKey → Except Unit RegResult

/-- The plugin catalog (`win_registry_interface.GetRegistryPlugins()`),
exposing `GetWeights()` and `GetWeightPlugins(weight, registry_type)`;
plugin instantiation is folded into the returned `Plugin` values. -/
structure Catalog where
  weights : List Int
  getWeightPlugins : Int → String → List Plugin

/-- The file object handed to `Parse`: its `name` attribute and the bytes
`read` returns, as characters. -/
structure FileObject where
  name : String
  data : List Char

/-- The opened hive (`winreg_file`): `GetKeyByPath` returns a key or `None`. -/
structure WinregFile where
  getKeyByPath : String → Option RegKey

/-- The terminating conditions `Parse` can surface: the explicit
`errors.UnableToParseFile` raises (with the file name and a cause), or an
exception propagating out of a plugin's `Process` call. -/
inductive ParseError where
  | unableToParseFile (name : String) (cause : String)
  | pluginRaised
deriving DecidableEq

/-- The `REG_TYPES` table, in declaration order: registry type name and the
known key paths that must all exist for that type. -/
def REG_TYPES : List (String × List String) :=
  [("NTUSER", ["\\Software\\Microsoft\\Windows\\CurrentVersion\\Explorer"]),
   ("SOFTWARE", ["\\Microsoft\\Windows\\CurrentVersion\\App Paths"]),
   ("SECURITY", ["\\Policy\\PolAdtEv"]),
   ("SYSTEM", ["\\Select"]),
   ("SAM", ["\\SAM\\Domains\\Account\\Users"]),
   ("UNKNOWN", [])]

/-- Whether every path of a probe set resolves to an existing key
(`winreg_file.GetKeyByPath(known_key_path)` truthy for each). -/
def allResolve (wf : WinregFile) (paths : List String) : Bool :=
  paths.all fun p => (wf.getKeyByPath p).isSome

/-- The registry-type detection loop of `Parse`, over the remaining entries
of `REG_TYPES`: skip `UNKNOWN`, return the first type whose known keys all
exist, keep the initial value `UNKNOWN` when none does. -/
def detectFrom (wf : WinregFile) : List (String × List String) → String
  | [] => "UNKNOWN"
  | (name, paths) :: rest =>
    if name = "UNKNOWN" then detectFrom wf rest
    else if allResolve wf paths then name
    else detectFrom wf rest

/-- Registry-type detection as `Parse` performs it. -/
def detect (wf : WinregFile) : String :=
  detectFrom wf REG_TYPES

/-- The per-event body of `GetEvents`: set `offset` to
`getattr(event_object, 'offset', key.offset)`, always set `registry_type`,
and set `url` to the joined `URLS` when the result declares a non-empty
collection. -/
def enrichEvent (call_back : RegResult) (key : RegKey) (rt : String)
    (e : Event) : Event :=
  { e with
    offset := some (e.offset.getD key.offset),
    registry_type := some rt,
    url := if call_back.URLS.isEmpty then e.url
           else some (String.intercalate " - " call_back.URLS) }

/-- Embedding of `WinRegistryParser.GetEvents`: enrich every event of the
plugin's result, in order. -/
def GetEvents (call_back : RegResult) (key : RegKey) (rt : String) :
    List Event :=
  call_back.events.map (enrichEvent call_back key rt)

/-- The events `Parse` yields for one claimed key: `GetEvents` output with
`event_object.plugin = plugin.plugin_name` stamped on each. -/
def emitForKey (p : Plugin) (call_back : RegResult) (key : RegKey)
    (rt : String) : List Event :=
  (GetEvents call_back key rt).map fun e => { e with plugin := some p.plugin_name }

/-- The inner plugin loop of `Parse` for one weight class: call `Process`
on each plugin in order; a raise propagates; the first truthy result wins;
falsy results move on to the next plugin. -/
def runWeight : List Plugin → RegKey → Except Unit (Option (Plugin × RegResult))
  | [], _ => .ok none
  | p :: rest, key =>
    match p.process key with
    | .error e => .error e
    | .ok call_back =>
      if call_back.events.isEmpty then runWeight rest key
      else .ok (some (p, call_back))

/-- The outer weight loop of `Parse` for one key, over the insertion-ordered
`plugins` dict: once a weight class claims the key (`parsed = True`), no
further weight is tried. -/
def dispatchKey : List (Int × List Plugin) → RegKey →
    Except Unit (Option (Plugin × RegResult))
  | [], _ => .ok none
  | (_, plist) :: rest, key =>
    match runWeight plist key with
    | .error e => .error e
    | .ok (some r) => .ok (some r)
    | .ok none => dispatchKey rest key

/-- The `plugins` dict built by `Parse`: one entry per weight from
`GetWeights()`, in that order, holding `GetWeightPlugins(weight, rt)`. -/
def buildPlugins (cat : Catalog) (rt : String) : List (Int × List Plugin) :=
  cat.weights.map fun w => (w, cat.getWeightPlugins w rt)

/-- The key loop of `Parse` as a generator: the events yielded so far and
the terminating condition, if any. An exception from a plugin's `Process`
ends the generator after the events of the earlier keys. -/
def parseKeys (wps : List (Int × List Plugin)) (rt : String) :
    List RegKey → List Event × Option ParseError
  | [] => ([], none)
  | key :: rest =>
    match dispatchKey wps key with
    | .error _ => ([], some .pluginRaised)
    | .ok none => parseKeys wps rt rest
    | .ok (some (p, call_back)) =>
      (emitForKey p call_back key rt ++ (parseKeys wps rt rest).1,
       (parseKeys wps rt rest).2)

/-- Embedding of `WinRegistryParser.Parse`, run to exhaustion: the sequence
of yielded events together with the terminating condition, if any.
`openResult` stands for `registry.OpenFile`, which either returns the hive
or raises an `IOError` with a message. The magic test compares the first
four bytes read with `'regf'`; the `WinRegistryCache` build has no
observable effect on anything modelled here and is omitted. -/
def Parse (fo : FileObject) (openResult : Except String WinregFile)
    (cat : Catalog) : List Event × Option ParseError :=
  if fo.data.take 4 ≠ "regf".toList then
    ([], some (.unableToParseFile fo.name "wrong magic"))
  else
    match openResult with
    | .error e => ([], some (.unableToParseFile fo.name e))
    | .ok wf =>
      let rt := detect wf
      parseKeys (buildPlugins cat rt) rt (traverse (wf.getKeyByPath "\\"))

/-! ### Reachability and occurrence counting for the traversal -/

/-- `Reaches k t`: key `t` is `k` itself or lies below `k` through
`GetSubkeys` links. -/
inductive Reaches : RegKey → RegKey → Prop
  | refl (k : RegKey) : Reaches k k
  | step {c t : RegKey} (k : RegKey) :
      c ∈ k.GetSubkeys → Reaches c t → Reaches k t

mutual

/-- How many node occurrences of the tree rooted at a key equal `t`. -/
def occCount (t : RegKey) : RegKey → Nat
  | .mk o subs => (if RegKey.mk o subs = t then 1 else 0) + occList t subs

/-- How many node occurrences of a forest equal `t`. -/
def occList (t : RegKey) : List RegKey → Nat
  | [] => 0
  | k :: rest => occCount t k + occList t rest

end

/-- Type detection as the spec words it, for comparison with `detect`:
"return the first HiveType (in an implementation-defined but fixed
enumeration order) for which every required path resolves to an existing
key in the hive; return UNKNOWN if none match", with `UNKNOWN` "the
fallback, not probed". -/
def detectSpec (wf : WinregFile) : String :=
  match (REG_TYPES.filter fun t => decide (t.1 ≠ "UNKNOWN")).find?
      (fun t => allResolve wf t.2) with
  | some t => t.1
  | none => "UNKNOWN"

/-! ### Concrete objects used to instantiate the theorems -/

/-- A leaf key at offset 200. -/
def exChild : RegKey := .mk 200 []

/-- A small hive tree: root at offset 100 with two leaf subkeys. -/
def exRoot : RegKey := .mk 100 [exChild, .mk 300 []]

/-- A free-standing key at offset 400. -/
def exKey : RegKey := .mk 400 []

/-- A plugin event with no attribute set apart from its payload. -/
def evPayload : Event :=
  { offset := none, registry_type := none, url := none, plugin := none,
    payload := 7 }

/-- A plugin event that set its own offset. -/
def evWithOffset : Event :=
  { offset := some 55, registry_type := none, url := none, plugin := none,
    payload := 8 }

/-- A plugin event that set its own url. -/
def evUrlSet : Event :=
  { offset := some 55, registry_type := none, url := some "preset",
    plugin := none, payload := 9 }

/-- A declining `Process` result (falsy). -/
def cbEmpty : RegResult := { events := [], URLS := [] }

/-- A one-event `Process` result without URLs. -/
def cbOne : RegResult := { events := [evPayload], URLS := [] }

/-- A one-event `Process` result declaring two URLs. -/
def cbUrls : RegResult :=
  { events := [evPayload], URLS := ["http://a", "http://b"] }

/-- A one-event `Process` result used as a competing match. -/
def cbSecond : RegResult := { events := [evWithOffset], URLS := [] }

/-- A plugin that always declines. -/
def pluginDecline : Plugin := { plugin_name := "decline", process := fun _ => .ok cbEmpty }

/-- A plugin that always matches with one event. -/
def pluginGood : Plugin := { plugin_name := "good", process := fun _ => .ok cbOne }

/-- A second always-matching plugin. -/
def pluginSecond : Plugin := { plugin_name := "second", process := fun _ => .ok cbSecond }

/-- A plugin whose `Process` raises on every key. -/
def pluginRaiser : Plugin := { plugin_name := "raiser", process := fun _ => .error () }

/-- A file object whose leading bytes are the registry magic. -/
def foOk : FileObject := { name := "NTUSER.DAT", data := "regfXYZ".toList }

/-- A hive exposing only the root key, so no diagnostic path resolves. -/
def wfRootOnly : WinregFile :=
  { getKeyByPath := fun p => if p = "\\" then some exRoot else none }

/-- A hive on which both the SOFTWARE and the SYSTEM diagnostic paths
resolve (and nothing else). -/
def wfSoftSys : WinregFile :=
  { getKeyByPath := fun p =>
      if p = "\\Microsoft\\Windows\\CurrentVersion\\App Paths" ∨ p = "\\Select"
      then some exKey else none }

/-- A catalog with a raising plugin at the lowest weight and a matching
plugin at a higher weight. -/
def catRaiseFirst : Catalog :=
  { weights := [1, 2],
    getWeightPlugins := fun w _ => if w = 1 then [pluginRaiser] else [pluginGood] }

/-- The same catalog without the raising plugin. -/
def catGoodOnly : Catalog :=
  { weights := [2], getWeightPlugins := fun _ _ => [pluginGood] }

/-- A catalog with two matching plugins at different weights. -/
def catTwoWeights : Catalog :=
  { weights := [1, 2],
    getWeightPlugins := fun w _ => if w = 1 then [pluginGood] else [pluginSecond] }

/-- A catalog holding only a raising plugin. -/
def catRaiseOnly : Catalog :=
  { weights := [5], getWeightPlugins := fun _ _ => [pluginRaiser] }

theorem Reaches.trans {a b c : RegKey} (h1 : Reaches a b) (h2 : Reaches b c) :
    Reaches a c := by
  induction h1 with
  | refl => exact h2
  | step k hc _ ih => exact Reaches.step k hc (ih h2)

mutual

/-- Each key occurs in the traversal of a tree exactly as often as it
occurs as a node of that tree. -/
theorem count_recurseKey (t k : RegKey) :
    (recurseKey k).count t = occCount t k := by
  match k with
  | .mk o subs =>
    rw [recurseKey, occCount, List.count_cons, count_recurseSubkeys t subs]
    by_cases h : RegKey.mk o subs = t
    · simp [h]; omega
    · simp [h]

/-- Forest version of `count_recurseKey`. -/
theorem count_recurseSubkeys (t : RegKey) (l : List RegKey) :
    (recurseSubkeys l).count t = occList t l := by
  match l with
  | [] => rw [recurseSubkeys, occList]; rfl
  | k :: rest =>
    rw [recurseSubkeys, occList, List.count_append, count_recurseKey t k,
      count_recurseSubkeys t rest]

end

mutual

/-- The traversal of a tree contains exactly the keys reachable from its
root. -/
theorem mem_recurseKey (k t : RegKey) : t ∈ recurseKey k ↔ Reaches k t := by
  match k with
  | .mk o subs =>
    rw [recurseKey]
    constructor
    · intro h
      rcases List.mem_cons.mp h with rfl | h2
      · exact Reaches.refl _
      · obtain ⟨c, hc, hr⟩ := (mem_recurseSubkeys subs t).mp h2
        exact Reaches.step _ hc hr
    · intro h
      cases h with
      | refl => exact List.mem_cons_self _ _
      | step _ hc hr =>
        exact List.mem_cons.mpr
          (Or.inr ((mem_recurseSubkeys subs t).mpr ⟨_, hc, hr⟩))

/-- The traversal of a forest contains exactly the keys reachable from one
of its roots. -/
theorem mem_recurseSubkeys (l : List RegKey) (t : RegKey) :
    t ∈ recurseSubkeys l ↔ ∃ c ∈ l, Reaches c t := by
  match l with
  | [] => simp [recurseSubkeys]
  | k :: rest =>
    rw [recurseSubkeys]
    simp only [List.mem_append, mem_recurseKey k t,
      mem_recurseSubkeys rest t, List.mem_cons]
    constructor
    · rintro (h | ⟨c, hc, hr⟩)
      · exact ⟨k, Or.inl rfl, h⟩
      · exact ⟨c, Or.inr hc, hr⟩
    · rintro ⟨c, rfl | hc, hr⟩
      · exact Or.inl hr
      · exact Or.inr ⟨c, hc, hr⟩

end

/-- Membership in a traversal is transitive along nested traversals. -/
theorem mem_recurseKey_trans {s x y : RegKey} (hx : x ∈ recurseKey s)
    (hy : y ∈ recurseKey x) : y ∈ recurseKey s :=
  (mem_recurseKey s y).mpr
    (Reaches.trans ((mem_recurseKey s x).mp hx) ((mem_recurseKey x y).mp hy))

/-- Membership transitivity for forest traversals. -/
theorem mem_recurseSubkeys_trans {l : List RegKey} {x y : RegKey}
    (hx : x ∈ recurseSubkeys l) (hy : y ∈ recurseKey x) :
    y ∈ recurseSubkeys l := by
  obtain ⟨c, hc, hr⟩ := (mem_recurseSubkeys l x).mp hx
  exact (mem_recurseSubkeys l y).mpr
    ⟨c, hc, Reaches.trans hr ((mem_recurseKey x y).mp hy)⟩

mutual

/-- In a duplicate-free traversal of a tree, every key is listed strictly
before each of its subkeys. -/
theorem preorder_key (k : RegKey) (h : (recurseKey k).Nodup) (p : RegKey)
    (hp : p ∈ recurseKey k) (c : RegKey) (hc : c ∈ p.GetSubkeys) :
    (recurseKey k).indexOf p < (recurseKey k).indexOf c := by
  match k with
  | .mk o subs =>
    rw [recurseKey] at h hp ⊢
    obtain ⟨hknotin, hA⟩ := List.nodup_cons.mp h
    have hcP : c ∈ recurseKey p :=
      (mem_recurseKey p c).mpr (Reaches.step p hc (Reaches.refl c))
    rcases List.mem_cons.mp hp with rfl | hpA
    · have hcA : c ∈ recurseSubkeys subs :=
        (mem_recurseSubkeys subs c).mpr ⟨c, hc, Reaches.refl c⟩
      have hne : RegKey.mk o subs ≠ c := fun he => hknotin (he ▸ hcA)
      rw [List.indexOf_cons_self, List.indexOf_cons_ne _ hne]
      exact Nat.succ_pos _
    · have hcA : c ∈ recurseSubkeys subs := mem_recurseSubkeys_trans hpA hcP
      have hne1 : RegKey.mk o subs ≠ p := fun he => hknotin (he ▸ hpA)
      have hne2 : RegKey.mk o subs ≠ c := fun he => hknotin (he ▸ hcA)
      rw [List.indexOf_cons_ne _ hne1, List.indexOf_cons_ne _ hne2]
      exact Nat.succ_lt_succ (preorder_subkeys subs hA p hpA c hc)

/-- Forest version of `preorder_key`. -/
theorem preorder_subkeys (l : List RegKey) (h : (recurseSubkeys l).Nodup)
    (p : RegKey) (hp : p ∈ recurseSubkeys l) (c : RegKey)
    (hc : c ∈ p.GetSubkeys) :
    (recurseSubkeys l).indexOf p < (recurseSubkeys l).indexOf c := by
  match l with
  | [] => simp [recurseSubkeys] at hp
  | k :: rest =>
    rw [recurseSubkeys] at h hp ⊢
    have hA := h.of_append_left
    have hB := h.of_append_right
    have hdisj := List.disjoint_of_nodup_append h
    have hcP : c ∈ recurseKey p :=
      (mem_recurseKey p c).mpr (Reaches.step p hc (Reaches.refl c))
    rcases List.mem_append.mp hp with hpA | hpB
    · have hcA : c ∈ recurseKey k := mem_recurseKey_trans hpA hcP
      rw [List.indexOf_append_of_mem hpA, List.indexOf_append_of_mem hcA]
      exact preorder_key k hA p hpA c hc
    · have hcB : c ∈ recurseSubkeys rest := mem_recurseSubkeys_trans hpB hcP
      have hpnA : p ∉ recurseKey k := fun hx => hdisj hx hpB
      have hcnA : c ∉ recurseKey k := fun hx => hdisj hx hcB
      rw [List.indexOf_append_of_not_mem hpnA,
        List.indexOf_append_of_not_mem hcnA]
      exact Nat.add_lt_add_left (preorder_subkeys rest hB p hpB c hc) _

end

/-- In a duplicate-free traversal, every key is listed strictly before each
of its proper descendants. -/
theorem preorder_descendant (root : RegKey) (h : (recurseKey root).Nodup) :
    ∀ p t, p ∈ recurseKey root → Reaches p t → t ≠ p →
      (recurseKey root).indexOf p < (recurseKey root).indexOf t := by
  have main : ∀ p t, Reaches p t → p ∈ recurseKey root → t ≠ p →
      (recurseKey root).indexOf p < (recurseKey root).indexOf t := by
    intro p t hr
    induction hr with
    | refl k => intro _ hne; exact absurd rfl hne
    | @step c t k hck hrc ih =>
      intro hp _
      have hckey : c ∈ recurseKey k :=
        (mem_recurseKey k c).mpr (Reaches.step k hck (Reaches.refl c))
      have hcmem : c ∈ recurseKey root := mem_recurseKey_trans hp hckey
      have h1 : (recurseKey root).indexOf k < (recurseKey root).indexOf c :=
        preorder_key root h k hp c hck
      by_cases hct : t = c
      · rw [hct]; exact h1
      · exact h1.trans (ih hcmem hct)
  exact fun p t hp hr hne => main p t hr hp hne

/-! ### Claim theorems -/

/-- C5: the traversal yields every key reachable from the root exactly
once (membership is exactly reachability, and each node occurrence is
listed exactly once), yields each key strictly before any of its subkeys
and, more generally, before any of its proper descendants (pre-order); a
null root yields the empty sequence rather than an error. -/
theorem c5_traversal_preorder_exactly_once :
    traverse none = [] ∧
    (∀ k t : RegKey, (recurseKey k).count t = occCount t k) ∧
    (∀ k t : RegKey, t ∈ recurseKey k ↔ Reaches k t) ∧
    (∀ root : RegKey, (recurseKey root).Nodup → ∀ p, p ∈ recurseKey root →
      (∀ c ∈ p.GetSubkeys,
        (recurseKey root).indexOf p < (recurseKey root).indexOf c) ∧
      (∀ t, Reaches p t → t ≠ p →
        (recurseKey root).indexOf p < (recurseKey root).indexOf t)) :=
  ⟨rfl, fun k t => count_recurseKey t k, fun k t => mem_recurseKey k t,
   fun root h p hp =>
     ⟨fun c hc => preorder_key root h p hp c hc,
      fun t hr hne => preorder_descendant root h p t hp hr hne⟩⟩

/-- C5 witness: on a concrete three-key tree the root is visited before
its first subkey. -/
theorem c5_witness :
    (recurseKey exRoot).Nodup ∧ exRoot ∈ recurseKey exRoot ∧
    exChild ∈ exRoot.GetSubkeys ∧
    (recurseKey exRoot).indexOf exRoot < (recurseKey exRoot).indexOf exChild :=
  ⟨by decide, by decide, by decide,
   (c5_traversal_preorder_exactly_once.2.2.2 exRoot (by decide) exRoot
     (by decide)).1 exChild (by decide)⟩

/-- C2: for every key and every plugin, a `Process` result that is empty or
absent (falsy) means the plugin declined the key: the key is not claimed by
that plugin, no events are emitted for it from that plugin, and the scan
continues with the later plugins exactly as if the declining plugin were
not there, at its own weight and at the dispatch level. -/
theorem c2_empty_result_declines (p : Plugin) (ps : List Plugin)
    (key : RegKey) (cb : RegResult) (hp : p.process key = .ok cb)
    (he : cb.events = []) :
    runWeight (p :: ps) key = runWeight ps key ∧
    ∀ w rest, dispatchKey ((w, p :: ps) :: rest) key
      = dispatchKey ((w, ps) :: rest) key := by
  have h1 : runWeight (p :: ps) key = runWeight ps key := by
    rw [runWeight, hp]
    simp [he]
  exact ⟨h1, fun w rest => by rw [dispatchKey, dispatchKey, h1]⟩

/-- C2 witness: a plugin answering with an empty result on a concrete key
is skipped in favour of the rest of the scan. -/
theorem c2_witness :
    pluginDecline.process exKey = .ok cbEmpty ∧ cbEmpty.events = [] ∧
    runWeight [pluginDecline, pluginGood] exKey = runWeight [pluginGood] exKey :=
  ⟨rfl, rfl,
   (c2_empty_result_declines pluginDecline [pluginGood] exKey cbEmpty rfl rfl).1⟩

/-- C7: for every event of a claimed result whose originating plugin
declares a non-empty URL collection, the enricher sets the event's url to
the URLs joined with the fixed separator `" - "`. -/
theorem c7_url_concatenation (cb : RegResult) (key : RegKey) (rt : String)
    (hurls : cb.URLS ≠ []) (e : Event) (he : e ∈ cb.events) :
    (enrichEvent cb key rt e).url
      = some (String.intercalate " - " cb.URLS) ∧
    enrichEvent cb key rt e ∈ GetEvents cb key rt := by
  constructor
  · simp [enrichEvent, hurls]
  · exact List.mem_map_of_mem _ he

/-- C7 witness: two declared URLs are joined with `" - "` on a concrete
event. -/
theorem c7_witness :
    (enrichEvent cbUrls exKey "NTUSER" evPayload).url
      = some "http://a - http://b" :=
  ((c7_url_concatenation cbUrls exKey "NTUSER" (by decide) evPayload
    (by decide)).1).trans (by decide)

/-- Every event the key loop of `Parse` yields has a non-null offset, the
detected registry type, and a non-null plugin identity. -/
theorem parseKeys_fields (wps : List (Int × List Plugin)) (rt : String)
    (ks : List RegKey) :
    ∀ ev ∈ (parseKeys wps rt ks).1,
      ev.offset.isSome ∧ ev.registry_type = some rt ∧ ev.plugin.isSome := by
  induction ks with
  | nil => simp [parseKeys]
  | cons k rest ih =>
    intro ev hev
    rw [parseKeys] at hev
    cases hd : dispatchKey wps k with
    | error e => rw [hd] at hev; simp at hev
    | ok o =>
      cases o with
      | none => rw [hd] at hev; exact ih ev hev
      | some pr =>
        obtain ⟨p, cb⟩ := pr
        rw [hd] at hev
        rcases List.mem_append.mp hev with hl | hr
        · simp only [emitForKey, GetEvents, List.map_map, List.mem_map] at hl
          obtain ⟨e, _, rfl⟩ := hl
          exact ⟨rfl, rfl, rfl⟩
        · exact ih ev hr

/-- The detection loop agrees with a first-match search over the
non-`UNKNOWN` entries. -/
theorem detectFrom_eq_find (wf : WinregFile) (l : List (String × List String)) :
    detectFrom wf l =
      (match (l.filter fun t => decide (t.1 ≠ "UNKNOWN")).find?
          (fun t => allResolve wf t.2) with
       | some t => t.1
       | none => "UNKNOWN") := by
  induction l with
  | nil => rfl
  | cons hd tl ih =>
    obtain ⟨name, paths⟩ := hd
    by_cases hn : name = "UNKNOWN"
    · simp [detectFrom, hn, List.filter_cons, ih]
    · by_cases hr : allResolve wf paths
      · simp [detectFrom, hn, hr, List.filter_cons, List.find?_cons]
      · simp [detectFrom, hn, hr, List.filter_cons, List.find?_cons, ih]

/-- A prefix of entries that are `UNKNOWN` or fail their probes does not
affect the detection loop. -/
theorem detectFrom_skip (wf : WinregFile) (l₁ l₂ : List (String × List String))
    (h : ∀ t ∈ l₁, t.1 = "UNKNOWN" ∨ allResolve wf t.2 = false) :
    detectFrom wf (l₁ ++ l₂) = detectFrom wf l₂ := by
  induction l₁ with
  | nil => rfl
  | cons hd tl ih =>
    have hh := h hd (List.mem_cons_self _ _)
    have ih' := ih fun t ht => h t (List.mem_cons_of_mem _ ht)
    obtain ⟨name, paths⟩ := hd
    by_cases hn : name = "UNKNOWN"
    · rw [List.cons_append, detectFrom, if_pos hn]
      exact ih'
    · rcases hh with h1 | h1
      · exact absurd h1 hn
      · rw [List.cons_append, detectFrom, if_neg hn, if_neg (by simp [h1])]
        exact ih'

/-- C4: type detection returns the first type, in the fixed `REG_TYPES`
order, whose diagnostic paths all resolve (the spec-worded search
`detectSpec`), returns `UNKNOWN` when no non-`UNKNOWN` type fully
resolves, and when exactly the probes of two types both resolve the
earlier of the two in that fixed order is the result. -/
theorem c4_detect_first_matching_type (wf : WinregFile) :
    detect wf = detectSpec wf ∧
    ((∀ t ∈ REG_TYPES, t.1 = "UNKNOWN" ∨ allResolve wf t.2 = false) →
      detect wf = "UNKNOWN") ∧
    (∀ i (hi : i < REG_TYPES.length) j (hj : j < REG_TYPES.length), i < j →
      (REG_TYPES.get ⟨i, hi⟩).1 ≠ "UNKNOWN" →
      (REG_TYPES.get ⟨j, hj⟩).1 ≠ "UNKNOWN" →
      allResolve wf (REG_TYPES.get ⟨i, hi⟩).2 = true →
      allResolve wf (REG_TYPES.get ⟨j, hj⟩).2 = true →
      (∀ k (hk : k < REG_TYPES.length), k ≠ i → k ≠ j →
        (REG_TYPES.get ⟨k, hk⟩).1 = "UNKNOWN" ∨
        allResolve wf (REG_TYPES.get ⟨k, hk⟩).2 = false) →
      detect wf = (REG_TYPES.get ⟨i, hi⟩).1) := by
  refine ⟨detectFrom_eq_find wf REG_TYPES, fun h => ?_, ?_⟩
  · have := detectFrom_skip wf REG_TYPES [] h
    rw [List.append_nil] at this
    exact this
  · intro i hi j hj hij hni _ hri _ hothers
    have hsplit : REG_TYPES
        = REG_TYPES.take i ++ REG_TYPES.get ⟨i, hi⟩ :: REG_TYPES.drop (i + 1) := by
      conv_lhs => rw [← List.take_append_drop i REG_TYPES]
      rw [List.drop_eq_getElem_cons hi]
      rfl
    have hpre : ∀ t ∈ REG_TYPES.take i,
        t.1 = "UNKNOWN" ∨ allResolve wf t.2 = false := by
      intro t ht
      obtain ⟨k, hk, hget⟩ := List.mem_iff_getElem.mp ht
      have hki : k < i := by
        have := hk
        rw [List.length_take] at this
        omega
      have hkl : k < REG_TYPES.length := lt_trans hki hi
      rw [List.getElem_take] at hget
      have h1 := hothers k hkl (by omega) (by omega)
      rw [show REG_TYPES.get ⟨k, hkl⟩ = REG_TYPES[k] from rfl, hget] at h1
      exact h1
    rw [detect]
    conv_lhs => rw [hsplit]
    rw [detectFrom_skip wf _ _ hpre]
    rcases hget : REG_TYPES.get ⟨i, hi⟩ with ⟨name, paths⟩
    rw [hget] at hni hri
    rw [detectFrom, if_neg hni, if_pos hri]

/-- C4 witness: on a hive where the SOFTWARE and SYSTEM probes both
resolve, the result is SOFTWARE, the earlier of the two in `REG_TYPES`
order. -/
theorem c4_witness : detect wfSoftSys = "SOFTWARE" :=
  ((c4_detect_first_matching_type wfSoftSys).2.2 1 (by decide) 3 (by decide)
    (by decide) (by decide) (by decide) (by decide) (by decide)
    (by decide)).trans (by decide)

/-- Scanning a concatenation of plugin lists is scanning the first list,
then the second on a miss. -/
theorem runWeight_append (l₁ l₂ : List Plugin) (key : RegKey) :
    runWeight (l₁ ++ l₂) key =
      (match runWeight l₁ key with
       | .error e => .error e
       | .ok (some r) => .ok (some r)
       | .ok none => runWeight l₂ key) := by
  induction l₁ with
  | nil => rfl
  | cons p rest ih =>
    rw [List.cons_append, runWeight, runWeight]
    cases hp : p.process key with
    | error e => rfl
    | ok cb =>
      by_cases hcb : cb.events.isEmpty
      · simp only [if_pos hcb]
        exact ih
      · simp only [if_neg hcb]

/-- The nested weight/plugin loops are a single first-match scan over the
weight classes flattened in order. -/
theorem dispatchKey_eq_flat (wps : List (Int × List Plugin)) (key : RegKey) :
    dispatchKey wps key = runWeight (wps.flatMap Prod.snd) key := by
  induction wps with
  | nil => rfl
  | cons wp rest ih =>
    obtain ⟨w, plist⟩ := wp
    rw [dispatchKey, List.flatMap_cons, runWeight_append]
    cases h : runWeight plist key with
    | error e => rfl
    | ok o =>
      cases o with
      | none => exact ih
      | some r => rfl

/-- A successful scan returns the first plugin whose `Process` result is
truthy; every earlier plugin in the scan returned a falsy result. -/
theorem runWeight_ok_some (l : List Plugin) (key : RegKey) (p : Plugin)
    (cb : RegResult) (h : runWeight l key = .ok (some (p, cb))) :
    p.process key = .ok cb ∧ cb.events ≠ [] ∧
    ∃ pre post, l = pre ++ p :: post ∧
      ∀ q ∈ pre, ∃ c, q.process key = .ok c ∧ c.events = [] := by
  induction l with
  | nil => simp [runWeight] at h
  | cons q rest ih =>
    rw [runWeight] at h
    split at h
    · exact absurd h (by simp)
    · rename_i c hq
      by_cases hc : c.events.isEmpty
      · rw [if_pos hc] at h
        obtain ⟨h1, h2, pre, post, h3, h4⟩ := ih h
        refine ⟨h1, h2, q :: pre, post, by rw [h3]; rfl, ?_⟩
        intro q' hq'
        rcases List.mem_cons.mp hq' with rfl | hmem
        · exact ⟨c, hq, by simpa using hc⟩
        · exact h4 q' hmem
      · rw [if_neg hc] at h
        simp only [Except.ok.injEq, Option.some.injEq, Prod.mk.injEq] at h
        obtain ⟨rfl, rfl⟩ := h
        exact ⟨hq, by simpa using hc, [], rest, rfl, by simp⟩

/-- C3: for every key at most one plugin's result is dispatched: the
nested weight/plugin loops are a first-match scan over the weights in
`GetWeights()` order (ascending by the catalog contract) with the
catalog's declared order within each weight, the dispatched plugin is the
first whose `Process` returned a truthy result with every earlier plugin
in the scan returning a falsy one, and with two plugins at an ascending
pair of weights both matching a key, the lower-weight plugin's result is
the one dispatched. -/
theorem c3_first_match_dispatch (cat : Catalog) (rt : String) (key : RegKey) :
    dispatchKey (buildPlugins cat rt) key
      = runWeight ((buildPlugins cat rt).flatMap Prod.snd) key ∧
    (∀ p cb, dispatchKey (buildPlugins cat rt) key = .ok (some (p, cb)) →
      p.process key = .ok cb ∧ cb.events ≠ [] ∧
      ∃ pre post, (buildPlugins cat rt).flatMap Prod.snd = pre ++ p :: post ∧
        ∀ q ∈ pre, ∃ c, q.process key = .ok c ∧ c.events = []) ∧
    (∀ w1 w2 a b ra, cat.weights = [w1, w2] → w1 < w2 →
      cat.getWeightPlugins w1 rt = [a] → cat.getWeightPlugins w2 rt = [b] →
      a.process key = .ok ra → ra.events ≠ [] →
      dispatchKey (buildPlugins cat rt) key = .ok (some (a, ra))) := by
  refine ⟨dispatchKey_eq_flat _ key, fun p cb h => ?_, ?_⟩
  · rw [dispatchKey_eq_flat] at h
    exact runWeight_ok_some _ key p cb h
  · intro w1 w2 a b ra hw _ hga hgb hpa hne
    have hbuild : buildPlugins cat rt = [(w1, [a]), (w2, [b])] := by
      simp [buildPlugins, hw, hga, hgb]
    have hie : ra.events.isEmpty = false := by
      cases hra : ra.events with
      | nil => exact absurd hra hne
      | cons x xs => rfl
    rw [hbuild]
    simp [dispatchKey, runWeight, hpa, hie]

/-- C3 witness: with a matching plugin at weight 1 and another at weight 2,
the weight-1 plugin's result is dispatched on a concrete key. -/
theorem c3_witness :
    dispatchKey (buildPlugins catTwoWeights "UNKNOWN") exKey
      = .ok (some (pluginGood, cbOne)) :=
  (c3_first_match_dispatch catTwoWeights "UNKNOWN" exKey).2.2 1 2 pluginGood
    pluginSecond cbOne rfl (by decide) rfl rfl rfl (by decide)

/-- The key loop terminates either normally or with a propagated plugin
exception; it never raises `UnableToParseFile` itself. -/
theorem parseKeys_terminal (wps : List (Int × List Plugin)) (rt : String)
    (ks : List RegKey) :
    (parseKeys wps rt ks).2 = none ∨
    (parseKeys wps rt ks).2 = some .pluginRaised := by
  induction ks with
  | nil => exact Or.inl rfl
  | cons k rest ih =>
    rw [parseKeys]
    cases hd : dispatchKey wps k with
    | error e => exact Or.inr rfl
    | ok o =>
      cases o with
      | none => exact ih
      | some pr => obtain ⟨p, cb⟩ := pr; exact ih

/-- C1 counterexample: a raising plugin at the lowest weight aborts the
whole dispatch — no events are emitted for any key even though a matching
plugin at the next weight would have claimed every key, as removing the
raising plugin shows. -/
theorem c1_counterexample :
    Parse foOk (.ok wfRootOnly) catRaiseFirst
      = ([], some ParseError.pluginRaised) ∧
    Parse foOk (.ok wfRootOnly) catGoodOnly =
      ([{ offset := some 100, registry_type := some "UNKNOWN", url := none,
          plugin := some "good", payload := 7 },
        { offset := some 200, registry_type := some "UNKNOWN", url := none,
          plugin := some "good", payload := 7 },
        { offset := some 300, registry_type := some "UNKNOWN", url := none,
          plugin := some "good", payload := 7 }], none) := by decide

/-- C1 (amended): an exception raised by a plugin's `Process` is not
recovered: it propagates out of the scan of its weight class, and the key
loop ends at the first key whose dispatch raises — events of earlier keys
are kept, but nothing is emitted for the failing key or any later key. -/
theorem c1_plugin_exception_aborts (wps : List (Int × List Plugin))
    (rt : String) (ks1 ks2 : List RegKey) (k : RegKey)
    (hok : ∀ x ∈ ks1, dispatchKey wps x ≠ .error ())
    (herr : dispatchKey wps k = .error ()) :
    parseKeys wps rt (ks1 ++ k :: ks2)
      = ((parseKeys wps rt ks1).1, some .pluginRaised) ∧
    (∀ (p : Plugin) ps key, p.process key = .error () →
      runWeight (p :: ps) key = .error ()) := by
  constructor
  · induction ks1 with
    | nil =>
      rw [List.nil_append]
      simp [parseKeys, herr]
    | cons x rest ih =>
      have hx := hok x (List.mem_cons_self _ _)
      have ih' := ih fun y hy => hok y (List.mem_cons_of_mem _ hy)
      rw [List.cons_append, parseKeys]
      cases hd : dispatchKey wps x with
      | error e => cases e; exact absurd hd hx
      | ok o =>
        cases o with
        | none =>
          rw [parseKeys, hd]
          exact ih'
        | some pr =>
          obtain ⟨p, cb⟩ := pr
          conv_rhs => rw [parseKeys, hd]
          rw [ih']
  · intro p ps key hp
    rw [runWeight, hp]

/-- C1 witness: with no earlier keys, a key whose dispatch raises ends the
loop immediately with the plugin-exception terminal state. -/
theorem c1_witness :
    dispatchKey (buildPlugins catRaiseOnly "UNKNOWN") exChild = .error () ∧
    parseKeys (buildPlugins catRaiseOnly "UNKNOWN") "UNKNOWN" ([] ++ exChild :: [exKey])
      = (([] : List Event), some ParseError.pluginRaised) :=
  ⟨rfl,
   ((c1_plugin_exception_aborts (buildPlugins catRaiseOnly "UNKNOWN")
     "UNKNOWN" [] [exKey] exChild (by simp) rfl).1).trans rfl⟩

/-- C8 counterexample: with the magic intact and the hive opening
successfully, `Parse` still ends in a terminating condition that is not
`UnableToParseFile` — a plugin exception propagates out of the core. -/
theorem c8_counterexample :
    foOk.data.take 4 = "regf".toList ∧
    Parse foOk (.ok wfRootOnly) catRaiseOnly
      = ([], some ParseError.pluginRaised) := by decide

/-- C8 (amended): `Parse` raises `UnableToParseFile` — carrying the file
name and a cause — if and only if the leading bytes are not the registry
magic or the hive abstraction fails to open the file, and then before any
traversal (no events precede it); an absent root terminates with zero
events and no error; absent diagnostic keys never terminate; but a plugin
exception does propagate as a terminating condition distinct from
`UnableToParseFile`. -/
theorem c8_unable_to_parse_iff (fo : FileObject)
    (orl : Except String WinregFile) (cat : Catalog) :
    (fo.data.take 4 ≠ "regf".toList →
      Parse fo orl cat = ([], some (.unableToParseFile fo.name "wrong magic"))) ∧
    (∀ e, fo.data.take 4 = "regf".toList → orl = .error e →
      Parse fo orl cat = ([], some (.unableToParseFile fo.name e))) ∧
    (∀ wf, fo.data.take 4 = "regf".toList → orl = .ok wf →
      (∀ n c, (Parse fo orl cat).2 ≠ some (.unableToParseFile n c)) ∧
      (wf.getKeyByPath "\\" = none → Parse fo orl cat = ([], none))) := by
  refine ⟨fun hm => ?_, fun e hm ho => ?_, fun wf hm ho => ⟨fun n c => ?_, fun hroot => ?_⟩⟩
  · rw [Parse.eq_def, if_pos hm]
  · rw [Parse.eq_def, if_neg (by simpa using hm), ho]
  · rw [Parse.eq_def, if_neg (by simpa using hm), ho]
    intro hcon
    rcases parseKeys_terminal (buildPlugins cat (detect wf)) (detect wf)
        (traverse (wf.getKeyByPath "\\")) with h | h
    · rw [h] at hcon; exact Option.noConfusion hcon
    · rw [h] at hcon
      exact ParseError.noConfusion (Option.some.inj hcon)
  · rw [Parse.eq_def, if_neg (by simpa using hm), ho]
    simp [hroot, traverse, parseKeys]

/-- C8 witness: a file with the wrong magic is rejected with
`UnableToParseFile` carrying its name, before any traversal. -/
theorem c8_witness :
    Parse { name := "bogus.txt", data := "MZxx".toList } (.ok wfRootOnly)
        catGoodOnly
      = ([], some (.unableToParseFile "bogus.txt" "wrong magic")) :=
  (c8_unable_to_parse_iff { name := "bogus.txt", data := "MZxx".toList }
    (.ok wfRootOnly) catGoodOnly).1 (by decide)

/-- C6: every event emitted from the core carries a non-null offset, the
detected hive type, and the claiming plugin's identity, regardless of what
the plugin set; the offset becomes the owning key's offset exactly when the
plugin left it unset, and a plugin-set offset is preserved. -/
theorem c6_enrichment_provenance (cb : RegResult) (key : RegKey)
    (rt : String) (e : Event) :
    ((enrichEvent cb key rt e).offset).isSome ∧
    (enrichEvent cb key rt e).registry_type = some rt ∧
    (e.offset = none → (enrichEvent cb key rt e).offset = some key.offset) ∧
    (∀ v, e.offset = some v → (enrichEvent cb key rt e).offset = some v) ∧
    (∀ p : Plugin, ∀ ev ∈ emitForKey p cb key rt,
      ev.plugin = some p.plugin_name) ∧
    (∀ fo cat wf, ∀ ev ∈ (Parse fo (.ok wf) cat).1,
      ev.offset.isSome ∧ ev.registry_type = some (detect wf) ∧
      ev.plugin.isSome) := by
  refine ⟨rfl, rfl, fun h => by simp [enrichEvent, h],
    fun v h => by simp [enrichEvent, h], fun p ev hev => ?_, fun fo cat wf ev hev => ?_⟩
  · simp only [emitForKey, List.mem_map] at hev
    obtain ⟨e', _, rfl⟩ := hev
    rfl
  · rw [Parse] at hev
    by_cases hm : fo.data.take 4 = "regf".toList
    · rw [if_neg (by simpa using hm)] at hev
      exact parseKeys_fields _ _ _ ev hev
    · rw [if_pos (by simpa using hm)] at hev
      simp at hev

/-- C6 witness: on a concrete key, an unset plugin offset becomes the
key's offset and a plugin-set offset survives. -/
theorem c6_witness :
    (enrichEvent cbOne exKey "SOFTWARE" evPayload).offset = some 400 ∧
    (enrichEvent cbOne exKey "SOFTWARE" evWithOffset).offset = some 55 :=
  ⟨((c6_enrichment_provenance cbOne exKey "SOFTWARE" evPayload).2.2.1
      rfl).trans (by decide),
   (c6_enrichment_provenance cbOne exKey "SOFTWARE" evWithOffset).2.2.2.1 55 rfl⟩

/-- C10: when the claimed result declares no URL collection (or an empty
one) the enricher leaves the event's url unchanged, and the enricher
touches no event fields other than offset, registry type and url; the
plugin identity is stamped separately, and the payload always survives. -/
theorem c10_enricher_frame (cb : RegResult) (key : RegKey) (rt : String)
    (e : Event) (p : Plugin) :
    (cb.URLS = [] → (enrichEvent cb key rt e).url = e.url) ∧
    (enrichEvent cb key rt e).payload = e.payload ∧
    (enrichEvent cb key rt e).plugin = e.plugin ∧
    emitForKey p cb key rt
      = (GetEvents cb key rt).map fun ev => { ev with plugin := some p.plugin_name } := by
  refine ⟨fun h => ?_, rfl, rfl, rfl⟩
  simp [enrichEvent, h]

/-- C10 witness: with no URL collection, a url the plugin set itself
survives and the payload is untouched, on a concrete event. -/
theorem c10_witness :
    (enrichEvent cbOne exKey "SYSTEM" evUrlSet).url = some "preset" ∧
    (enrichEvent cbOne exKey "SYSTEM" evUrlSet).payload = 9 :=
  ⟨((c10_enricher_frame cbOne exKey "SYSTEM" evUrlSet pluginGood).1 rfl).trans rfl,
   ((c10_enricher_frame cbOne exKey "SYSTEM" evUrlSet pluginGood).2.1).trans rfl⟩

end WinReg
